import Mathlib

/-!
Verification of the streaming replace-and-log script (Sample 03).

The script reads `sample.txt` line by line, replaces every occurrence of the
literal `devmode` by `HelloWorld`, counts the replacements and the one-based
numbers of the lines that contained the token, writes the transformed lines
to a temporary file `sample.tmp` (one `\n` terminator appended per line),
renames the temporary file onto the original, and finally writes a result
log.  Strings are embedded as `List Char`; the streaming loop is embedded as
a left fold over the list of input lines; the effectful orchestration
(`processFileAndGenerateLog` / `main`) is embedded as a pure function over an
explicit file-system state with an explicit fault model.
-/

/-! ## The occurrence engine

`countNonOverlappingOccurrences` embeds the source's `indexOf` loop:

    let count = 0, searchIndex = 0;
    while (true) {
      const foundAtIndex = haystack.indexOf(needle, searchIndex);
      if (foundAtIndex === -1) break;
      count += 1;
      searchIndex = foundAtIndex + needle.length;
    }

`indexOf(needle, searchIndex)` returns the leftmost match at or after
`searchIndex`, so the loop is equivalent to a left-to-right scan that, at
each position, either recognises the needle as a prefix (and jumps past that
match) or moves one character to the right.  Each iteration of the scan
consumes at least one character of the remaining haystack, hence
`haystack.length` bounds the number of iterations and is used as structural
fuel (`countLoop_spill` below shows the fuel never runs out). -/

def countLoop (needle : List Char) : Nat → List Char → Nat
  | _, [] => 0
  | 0, _ :: _ => 0
  | fuel + 1, c :: rest =>
    if needle.isPrefixOf (c :: rest) then
      1 + countLoop needle fuel (rest.drop (needle.length - 1))
    else
      countLoop needle fuel rest

/-- `countNonOverlappingOccurrences(haystack, needle)` of the source: the
number of non-overlapping occurrences of `needle` in `haystack`, scanning
left to right and advancing past the end of each match; `0` for an empty
needle (the source returns early in that case). -/
def countNonOverlappingOccurrences (haystack needle : List Char) : Nat :=
  if needle.length = 0 then 0 else countLoop needle haystack.length haystack

/-! ## Literal replacement

The source replaces with `originalLine.replace(/devmode/g, 'HelloWorld')`: a
global regex over a literal, which performs the same left-to-right
non-overlapping scan as the counting loop and substitutes the replacement
for each match.  `replaceLoop` embeds that scan with the same fuel scheme;
`replaceAll` guards the (never exercised by the source, whose token is the
nonempty literal `devmode`) empty-token case by the zero-matches convention
that the counting function establishes for empty tokens. -/

def replaceLoop (needle repl : List Char) : Nat → List Char → List Char
  | _, [] => []
  | 0, l => l
  | fuel + 1, c :: rest =>
    if needle.isPrefixOf (c :: rest) then
      repl ++ replaceLoop needle repl fuel (rest.drop (needle.length - 1))
    else
      c :: replaceLoop needle repl fuel rest

/-- `text.replace(/token/g, replacement)` for a literal token: every
non-overlapping occurrence of `token` in `text` is replaced by
`replacement`, scanning left to right.  An empty token yields zero matches
by the same convention as `countNonOverlappingOccurrences`. -/
def replaceAll (text token repl : List Char) : List Char :=
  if token.length = 0 then text else replaceLoop token repl text.length text

/-! ## The line source

`readline.createInterface({ input, crlfDelay: Infinity })` splits the input
into lines at `\r\n`, `\n` and lone `\r`, strips the terminators, and emits
a final unterminated chunk as a last line (an input ending in a terminator
produces no trailing empty line).  `splitLinesAux acc s` holds in `acc` the
(reversed) characters of the line being accumulated. -/

def splitLinesAux : List Char → List Char → List (List Char)
  | acc, [] => if acc.isEmpty then [] else [acc.reverse]
  | acc, '\r' :: '\n' :: rest => acc.reverse :: splitLinesAux [] rest
  | acc, '\r' :: rest => acc.reverse :: splitLinesAux [] rest
  | acc, '\n' :: rest => acc.reverse :: splitLinesAux [] rest
  | acc, c :: rest => splitLinesAux (c :: acc) rest

/-- The ordered lines of a document, as the source's readline interface
produces them. -/
def splitLines (doc : List Char) : List (List Char) :=
  splitLinesAux [] doc

/-! ## The streaming loop

State of the `for await (const originalLine of lineReader)` loop.  `written`
is the byte content accumulated in the temporary file by
`writeStream.write(`${replacedLine}\n`)`. -/

structure LoopState where
  currentLineNumber : Nat
  totalOccurrencesCount : Nat
  matchedLineNumbers : List Nat
  written : List Char
deriving Repr, DecidableEq

/-- One iteration of the streaming loop of `processFileAndGenerateLog`:
bump the line number, count the occurrences in the line, accumulate the
counters when the count is positive, and append the replaced line plus a
`\n` terminator to the temporary file. -/
def processLine (token repl : List Char) (s : LoopState) (originalLine : List Char) :
    LoopState :=
  let currentLineNumber := s.currentLineNumber + 1
  let occurrencesInLine := countNonOverlappingOccurrences originalLine token
  { currentLineNumber := currentLineNumber
    totalOccurrencesCount :=
      if 0 < occurrencesInLine then s.totalOccurrencesCount + occurrencesInLine
      else s.totalOccurrencesCount
    matchedLineNumbers :=
      if 0 < occurrencesInLine then s.matchedLineNumbers ++ [currentLineNumber]
      else s.matchedLineNumbers
    written := s.written ++ (replaceAll originalLine token repl ++ ['\n']) }

/-- The whole streaming loop, started from the source's initial state
(`currentLineNumber = 0`, `totalOccurrencesCount = 0`, empty
`matchedLineNumbers`, nothing written yet). -/
def runLoop (token repl : List Char) (lines : List (List Char)) : LoopState :=
  lines.foldl (processLine token repl) ⟨0, 0, [], []⟩

/-- The fixed match token of the source, the literal `devmode`. -/
def matchTokenChars : List Char := "devmode".data

/-- The fixed replacement of the source, the literal `HelloWorld`. -/
def replacementChars : List Char := "HelloWorld".data

/-- The content the run commits for an input document: the input is split
into lines, every line is replaced and written with a `\n` terminator, and
the resulting bytes are renamed onto the source path. -/
def transformDoc (doc : List Char) : List Char :=
  (runLoop matchTokenChars replacementChars (splitLines doc)).written

/-- The final `totalOccurrencesCount` of a run over a document. -/
def totalCountDoc (doc : List Char) : Nat :=
  (runLoop matchTokenChars replacementChars (splitLines doc)).totalOccurrencesCount

/-! ## The file-system model

The effectful part of the script is embedded as a pure function over an
explicit file-system state.  Only the three files the script touches are
modelled: the source document (`sample.txt`), the temporary staging file
(`sample.tmp`) and the result log (`result.txt`); the log is abstracted to
the counters it records (its timestamp and the fixed path strings carry no
contract).  A fault environment says which of the underlying I/O operations
succeed during the run; `partialWritten` is the content the temporary file
is left with when a streaming write fails midway. -/

structure FileSystemState where
  sourceFile : Option (List Char)
  tempFile : Option (List Char)
  logFile : Option (Nat × List Nat)
deriving Repr, DecidableEq

structure Faults where
  readOk : Bool
  writeOk : Bool
  partialWritten : List Char
  renameOk : Bool
  logWriteOk : Bool
  unlinkOk : Bool
deriving Repr, DecidableEq

inductive RunError where
  | notFoundOrUnreadable
  | writeFailure
  | commitFailure
  | logFailure
deriving Repr, DecidableEq

/-- `processFileAndGenerateLog` of the source, over the file-system model:
validate that the source file exists and is readable (otherwise throw before
touching anything); stream the transformed lines into the temporary file (a
write fault aborts the run with the temporary file partially written);
atomically rename the temporary file onto the source (a rename fault aborts
with the temporary file left holding the full output); finally write the
result log (a log fault aborts after the commit).  Errors propagate to the
caller together with the file-system state they leave behind. -/
def processFileAndGenerateLog (flt : Faults) (fs : FileSystemState) :
    Except (RunError × FileSystemState) FileSystemState :=
  match fs.sourceFile with
  | none => .error (.notFoundOrUnreadable, fs)
  | some content =>
    if flt.readOk = false then
      .error (.notFoundOrUnreadable, fs)
    else if flt.writeOk = false then
      .error (.writeFailure, { fs with tempFile := some flt.partialWritten })
    else
      let out := transformDoc content
      let fs1 : FileSystemState := { fs with tempFile := some out }
      if flt.renameOk = false then
        .error (.commitFailure, fs1)
      else
        let fs2 : FileSystemState := { fs1 with sourceFile := some out, tempFile := none }
        if flt.logWriteOk = false then
          .error (.logFailure, fs2)
        else
          .ok { fs2 with
                  logFile := some (totalCountDoc content,
                    (runLoop matchTokenChars replacementChars
                      (splitLines content)).matchedLineNumbers) }

/-- `main` of the source (named `mainRun` here because Lean reserves `main`
for an executable entry point): run `processFileAndGenerateLog`; on any error,
attempt to unlink the temporary file (a failure of the unlink itself is
swallowed) and signal failure through the exit status (`process.exitCode =
1`).  The returned `Bool` is the process success signal (`true` = exit
status zero). -/
def mainRun (flt : Faults) (fs : FileSystemState) : FileSystemState × Bool :=
  match processFileAndGenerateLog flt fs with
  | .ok fs2 => (fs2, true)
  | .error (_, fs2) =>
    (if flt.unlinkOk then { fs2 with tempFile := none } else fs2, false)

/-! ## The backpressure trace model

Lines 148–153 of the source submit each transformed line with
`writeStream.write(...)`; when that call reports saturation (returns
`false`), the loop awaits one `drain` event before submitting the next
line.  The trace model records, in order, the submission of each line
(0-based index) and every await of a drain signal; `saturated i` is the
sink's report for the write of line `i`. -/

inductive StreamEvent where
  | writeLine (i : Nat)
  | drainWait
deriving Repr, DecidableEq

def writerEvents (saturated : Nat → Bool) : Nat → Nat → List StreamEvent
  | _, 0 => []
  | i, n + 1 =>
    StreamEvent.writeLine i ::
      (if saturated i then
        StreamEvent.drainWait :: writerEvents saturated (i + 1) n
      else
        writerEvents saturated (i + 1) n)

/-- The ordered submission/wait events of a streaming run over `numLines`
lines. -/
def streamingTrace (saturated : Nat → Bool) (numLines : Nat) : List StreamEvent :=
  writerEvents saturated 0 numLines

/-! ## Helper lemmas: prefixes and the scanning loops -/

theorem isPrefixOf_append_self (l s : List Char) : l.isPrefixOf (l ++ s) = true := by
  induction l with
  | nil => simp [List.isPrefixOf]
  | cons a as ih => simp [List.isPrefixOf, ih]

theorem isPrefixOf_exists_suffix :
    ∀ (l h : List Char), l.isPrefixOf h = true → ∃ s, h = l ++ s := by
  intro l
  induction l with
  | nil => exact fun h _ => ⟨h, rfl⟩
  | cons a as ih =>
    intro h hp
    cases h with
    | nil => simp [List.isPrefixOf] at hp
    | cons b bs =>
      simp only [List.isPrefixOf, Bool.and_eq_true, beq_iff_eq] at hp
      obtain ⟨rfl, hp2⟩ := hp
      obtain ⟨s, rfl⟩ := ih bs hp2
      exact ⟨s, rfl⟩

theorem length_le_of_isPrefixOf {l h : List Char} (hp : l.isPrefixOf h = true) :
    l.length ≤ h.length := by
  obtain ⟨s, rfl⟩ := isPrefixOf_exists_suffix l h hp
  simp

theorem countLoop_stable (needle : List Char) :
    ∀ (fuel fuel' : Nat) (h : List Char), h.length ≤ fuel → h.length ≤ fuel' →
      countLoop needle fuel h = countLoop needle fuel' h := by
  intro fuel
  induction fuel with
  | zero =>
    intro fuel' h hle _
    have hnil : h = [] := List.eq_nil_of_length_eq_zero (Nat.le_zero.mp hle)
    subst hnil
    cases fuel' <;> rfl
  | succ f ih =>
    intro fuel' h hle hle'
    cases h with
    | nil => cases fuel' <;> rfl
    | cons c rest =>
      cases fuel' with
      | zero => simp at hle'
      | succ f' =>
        simp only [countLoop]
        by_cases hp : needle.isPrefixOf (c :: rest) = true
        · simp only [hp, if_true]
          have hd : (rest.drop (needle.length - 1)).length ≤ rest.length := by
            simp [List.length_drop]
          have h1 : (rest.drop (needle.length - 1)).length ≤ f := by
            simp only [List.length_cons] at hle; omega
          have h2 : (rest.drop (needle.length - 1)).length ≤ f' := by
            simp only [List.length_cons] at hle'; omega
          rw [ih f' _ h1 h2]
        · simp only [Bool.not_eq_true] at hp
          simp only [hp, Bool.false_eq_true, if_false]
          have h1 : rest.length ≤ f := by simp only [List.length_cons] at hle; omega
          have h2 : rest.length ≤ f' := by simp only [List.length_cons] at hle'; omega
          exact ih f' rest h1 h2

theorem replaceLoop_stable (needle repl : List Char) :
    ∀ (fuel fuel' : Nat) (h : List Char), h.length ≤ fuel → h.length ≤ fuel' →
      replaceLoop needle repl fuel h = replaceLoop needle repl fuel' h := by
  intro fuel
  induction fuel with
  | zero =>
    intro fuel' h hle _
    have hnil : h = [] := List.eq_nil_of_length_eq_zero (Nat.le_zero.mp hle)
    subst hnil
    cases fuel' <;> rfl
  | succ f ih =>
    intro fuel' h hle hle'
    cases h with
    | nil => cases fuel' <;> rfl
    | cons c rest =>
      cases fuel' with
      | zero => simp at hle'
      | succ f' =>
        simp only [replaceLoop]
        by_cases hp : needle.isPrefixOf (c :: rest) = true
        · simp only [hp, if_true]
          have h1 : (rest.drop (needle.length - 1)).length ≤ f := by
            have := List.length_drop (needle.length - 1) rest
            simp only [List.length_cons] at hle; omega
          have h2 : (rest.drop (needle.length - 1)).length ≤ f' := by
            have := List.length_drop (needle.length - 1) rest
            simp only [List.length_cons] at hle'; omega
          rw [ih f' _ h1 h2]
        · simp only [Bool.not_eq_true] at hp
          simp only [hp, Bool.false_eq_true, if_false]
          have h1 : rest.length ≤ f := by simp only [List.length_cons] at hle; omega
          have h2 : rest.length ≤ f' := by simp only [List.length_cons] at hle'; omega
          rw [ih f' rest h1 h2]

/-- The fuel `haystack.length` never runs out: any larger fuel computes the
same count. -/
theorem countLoop_spill (needle : List Char) (fuel : Nat) (h : List Char)
    (hle : h.length ≤ fuel) : countLoop needle fuel h = countLoop needle h.length h :=
  countLoop_stable needle fuel h.length h hle le_rfl

theorem replaceLoop_spill (needle repl : List Char) (fuel : Nat) (h : List Char)
    (hle : h.length ≤ fuel) :
    replaceLoop needle repl fuel h = replaceLoop needle repl h.length h :=
  replaceLoop_stable needle repl fuel h.length h hle le_rfl

theorem countNonOverlappingOccurrences_nil (needle : List Char) :
    countNonOverlappingOccurrences [] needle = 0 := by
  unfold countNonOverlappingOccurrences
  split <;> rfl

/-- A match at the current position counts once and the scan resumes past
the end of the match. -/
theorem countNonOverlappingOccurrences_head_match (needle h : List Char)
    (hne : needle ≠ []) (hp : needle.isPrefixOf h = true) :
    countNonOverlappingOccurrences h needle
      = 1 + countNonOverlappingOccurrences (h.drop needle.length) needle := by
  cases h with
  | nil =>
    cases needle with
    | nil => exact absurd rfl hne
    | cons a as => simp [List.isPrefixOf] at hp
  | cons c rest =>
    have hlen : needle.length ≠ 0 := fun h0 => hne (List.eq_nil_of_length_eq_zero h0)
    unfold countNonOverlappingOccurrences
    simp only [hlen, if_false]
    simp only [List.length_cons, countLoop, hp, if_true]
    have hdrop : (c :: rest).drop needle.length = rest.drop (needle.length - 1) := by
      obtain ⟨k, hk⟩ : ∃ k, needle.length = k + 1 :=
        ⟨needle.length - 1, by omega⟩
      rw [hk]
      simp
    rw [hdrop, countLoop_spill needle rest.length _ (by simp [List.length_drop])]

/-- No match at the current position: the scan moves one character to the
right. -/
theorem countNonOverlappingOccurrences_head_miss (needle : List Char) (c : Char)
    (rest : List Char) (hne : needle ≠ [])
    (hp : needle.isPrefixOf (c :: rest) = false) :
    countNonOverlappingOccurrences (c :: rest) needle
      = countNonOverlappingOccurrences rest needle := by
  have hlen : needle.length ≠ 0 := fun h0 => hne (List.eq_nil_of_length_eq_zero h0)
  unfold countNonOverlappingOccurrences
  simp only [hlen, if_false]
  simp only [List.length_cons, countLoop, hp, Bool.false_eq_true, if_false]

/-- A token occurrence immediately at the head is counted once and the scan
continues right after it, so an occurrence immediately following another
match is still counted. -/
theorem countNonOverlappingOccurrences_token_append (needle s : List Char)
    (hne : needle ≠ []) :
    countNonOverlappingOccurrences (needle ++ s) needle
      = 1 + countNonOverlappingOccurrences s needle := by
  rw [countNonOverlappingOccurrences_head_match needle (needle ++ s) hne
    (isPrefixOf_append_self needle s)]
  rw [List.drop_left]

theorem replaceAll_head_match (token repl h : List Char) (hne : token ≠ [])
    (hp : token.isPrefixOf h = true) :
    replaceAll h token repl = repl ++ replaceAll (h.drop token.length) token repl := by
  cases h with
  | nil =>
    cases token with
    | nil => exact absurd rfl hne
    | cons a as => simp [List.isPrefixOf] at hp
  | cons c rest =>
    have hlen : token.length ≠ 0 := fun h0 => hne (List.eq_nil_of_length_eq_zero h0)
    unfold replaceAll
    simp only [hlen, if_false]
    simp only [List.length_cons, replaceLoop, hp, if_true]
    have hdrop : (c :: rest).drop token.length = rest.drop (token.length - 1) := by
      obtain ⟨k, hk⟩ : ∃ k, token.length = k + 1 := ⟨token.length - 1, by omega⟩
      rw [hk]
      simp
    rw [hdrop, replaceLoop_spill token repl rest.length _ (by simp [List.length_drop])]

theorem replaceAll_head_miss (token repl : List Char) (c : Char) (rest : List Char)
    (hne : token ≠ []) (hp : token.isPrefixOf (c :: rest) = false) :
    replaceAll (c :: rest) token repl = c :: replaceAll rest token repl := by
  have hlen : token.length ≠ 0 := fun h0 => hne (List.eq_nil_of_length_eq_zero h0)
  unfold replaceAll
  simp only [hlen, if_false]
  simp only [List.length_cons, replaceLoop, hp, Bool.false_eq_true, if_false]

/-- A line in which the token does not occur is replaced by itself. -/
theorem replaceAll_of_count_zero (token repl : List Char) :
    ∀ h : List Char, countNonOverlappingOccurrences h token = 0 →
      replaceAll h token repl = h := by
  by_cases hne : token = []
  · intro h _
    subst hne
    simp [replaceAll]
  · intro h
    generalize hfuel : h.length = fuel
    induction fuel generalizing h with
    | zero =>
      have : h = [] := List.eq_nil_of_length_eq_zero hfuel
      subst this
      intro _
      unfold replaceAll
      split <;> rfl
    | succ f ih =>
      cases h with
      | nil => simp at hfuel
      | cons c rest =>
        intro hc
        by_cases hp : token.isPrefixOf (c :: rest) = true
        · rw [countNonOverlappingOccurrences_head_match token _ hne hp] at hc
          omega
        · simp only [Bool.not_eq_true] at hp
          rw [countNonOverlappingOccurrences_head_miss token c rest hne hp] at hc
          rw [replaceAll_head_miss token repl c rest hne hp]
          rw [ih rest (by simpa using hfuel) hc]

/-! ## Helper lemmas: the line source -/

/-- Lines produced by the readline model contain no line-terminator
characters. -/
theorem splitLinesAux_clean :
    ∀ (n : Nat) (s acc : List Char), s.length ≤ n →
      (∀ c ∈ acc, c ≠ '\n' ∧ c ≠ '\r') →
      ∀ l ∈ splitLinesAux acc s, ∀ c ∈ l, c ≠ '\n' ∧ c ≠ '\r' := by
  intro n
  induction n with
  | zero =>
    intro s acc hlen hacc l hl
    have hs : s = [] := List.eq_nil_of_length_eq_zero (Nat.le_zero.mp hlen)
    subst hs
    simp only [splitLinesAux] at hl
    split at hl
    · simp at hl
    · simp only [List.mem_singleton] at hl
      subst hl
      intro c hc
      exact hacc c (List.mem_reverse.mp hc)
  | succ k ih =>
    intro s acc hlen hacc l hl
    cases s with
    | nil =>
      simp only [splitLinesAux] at hl
      split at hl
      · simp at hl
      · simp only [List.mem_singleton] at hl
        subst hl
        intro c hc
        exact hacc c (List.mem_reverse.mp hc)
    | cons c0 rest =>
      by_cases hr : c0 = '\r'
      · subst hr
        cases rest with
        | nil =>
          have heq : splitLinesAux acc ['\r'] = acc.reverse :: splitLinesAux [] [] := rfl
          rw [heq] at hl
          rcases List.mem_cons.mp hl with h | h
          · subst h
            intro c hc
            exact hacc c (List.mem_reverse.mp hc)
          · exact ih [] [] (by simp) (by simp) l h
        | cons c1 rest1 =>
          by_cases hn1 : c1 = '\n'
          · subst hn1
            have heq : splitLinesAux acc ('\r' :: '\n' :: rest1)
                = acc.reverse :: splitLinesAux [] rest1 := rfl
            rw [heq] at hl
            rcases List.mem_cons.mp hl with h | h
            · subst h
              intro c hc
              exact hacc c (List.mem_reverse.mp hc)
            · refine ih rest1 [] ?_ (by simp) l h
              simp only [List.length_cons] at hlen
              omega
          · have heq : splitLinesAux acc ('\r' :: c1 :: rest1)
                = acc.reverse :: splitLinesAux [] (c1 :: rest1) := by
              simp [splitLinesAux, hn1]
            rw [heq] at hl
            rcases List.mem_cons.mp hl with h | h
            · subst h
              intro c hc
              exact hacc c (List.mem_reverse.mp hc)
            · refine ih (c1 :: rest1) [] ?_ (by simp) l h
              simp only [List.length_cons] at hlen ⊢
              omega
      · by_cases hn : c0 = '\n'
        · subst hn
          have heq : splitLinesAux acc ('\n' :: rest)
              = acc.reverse :: splitLinesAux [] rest := rfl
          rw [heq] at hl
          rcases List.mem_cons.mp hl with h | h
          · subst h
            intro c hc
            exact hacc c (List.mem_reverse.mp hc)
          · refine ih rest [] ?_ (by simp) l h
            simp only [List.length_cons] at hlen
            omega
        · have heq : splitLinesAux acc (c0 :: rest) = splitLinesAux (c0 :: acc) rest := by
            simp [splitLinesAux, hr, hn]
          rw [heq] at hl
          refine ih rest (c0 :: acc) ?_ ?_ l hl
          · simp only [List.length_cons] at hlen
            omega
          · intro c hc
            rcases List.mem_cons.mp hc with h | h
            · subst h
              exact ⟨hn, hr⟩
            · exact hacc c h

/-- Every line the run reads from the input document is free of terminator
characters. -/
theorem splitLines_clean (doc : List Char) :
    ∀ l ∈ splitLines doc, ∀ c ∈ l, c ≠ '\n' ∧ c ≠ '\r' :=
  splitLinesAux_clean doc.length doc [] le_rfl (by simp)

/-- Scanning a terminator-free chunk only accumulates it. -/
theorem splitLinesAux_absorb :
    ∀ (l acc rest : List Char), (∀ c ∈ l, c ≠ '\n' ∧ c ≠ '\r') →
      splitLinesAux acc (l ++ rest) = splitLinesAux (l.reverse ++ acc) rest := by
  intro l
  induction l with
  | nil => intro acc rest _; rfl
  | cons c0 l' ih =>
    intro acc rest hclean
    have hc0 := hclean c0 (by simp)
    have heq : splitLinesAux acc (c0 :: (l' ++ rest)) = splitLinesAux (c0 :: acc) (l' ++ rest) := by
      simp [splitLinesAux, hc0.1, hc0.2]
    rw [List.cons_append, heq, ih (c0 :: acc) rest (fun c hc => hclean c (by simp [hc]))]
    simp

/-- Splitting the rendering of terminator-free lines (each line written with
one `\n` appended, as the streaming loop writes them) recovers exactly
those lines. -/
theorem splitLines_flatten_newline :
    ∀ (lines : List (List Char)), (∀ l ∈ lines, ∀ c ∈ l, c ≠ '\n' ∧ c ≠ '\r') →
      splitLines ((lines.map (fun l => l ++ ['\n'])).flatten) = lines := by
  intro lines
  induction lines with
  | nil => intro _; rfl
  | cons l rest ih =>
    intro hclean
    have hl : ∀ c ∈ l, c ≠ '\n' ∧ c ≠ '\r' := hclean l (by simp)
    have hstep : (((l :: rest).map (fun l => l ++ ['\n'])).flatten : List Char)
        = l ++ ('\n' :: (rest.map (fun l => l ++ ['\n'])).flatten) := by
      simp
    unfold splitLines
    rw [hstep, splitLinesAux_absorb l [] _ hl]
    have heq : splitLinesAux (l.reverse ++ []) ('\n' :: (rest.map (fun l => l ++ ['\n'])).flatten)
        = (l.reverse ++ []).reverse :: splitLinesAux [] ((rest.map (fun l => l ++ ['\n'])).flatten) := rfl
    rw [heq]
    simp only [List.append_nil, List.reverse_reverse]
    exact congrArg (l :: ·) (ih (fun l' hl' => hclean l' (by simp [hl'])))

/-! ## Helper lemmas: the streaming loop -/

/-- The one-based numbers, counted from `k`, of the lines that contain at
least one occurrence of the token. -/
def matchedFrom (token : List Char) : Nat → List (List Char) → List Nat
  | _, [] => []
  | k, l :: rest =>
    if 0 < countNonOverlappingOccurrences l token then
      (k + 1) :: matchedFrom token (k + 1) rest
    else
      matchedFrom token (k + 1) rest

theorem matchedFrom_cons (token l : List Char) (rest : List (List Char)) (k : Nat) :
    matchedFrom token k (l :: rest) =
      if 0 < countNonOverlappingOccurrences l token then
        (k + 1) :: matchedFrom token (k + 1) rest
      else
        matchedFrom token (k + 1) rest := rfl

/-- Closed form of the streaming loop from an arbitrary intermediate
state. -/
theorem foldl_processLine_closed (token repl : List Char) :
    ∀ (lines : List (List Char)) (s : LoopState),
      lines.foldl (processLine token repl) s =
        { currentLineNumber := s.currentLineNumber + lines.length
          totalOccurrencesCount := s.totalOccurrencesCount
            + (lines.map (fun l => countNonOverlappingOccurrences l token)).sum
          matchedLineNumbers := s.matchedLineNumbers
            ++ matchedFrom token s.currentLineNumber lines
          written := s.written
            ++ (lines.map (fun l => replaceAll l token repl ++ ['\n'])).flatten } := by
  intro lines
  induction lines with
  | nil =>
    intro s
    cases s
    simp [matchedFrom]
  | cons l rest ih =>
    intro s
    rw [List.foldl_cons, ih, matchedFrom_cons]
    unfold processLine
    by_cases h : 0 < countNonOverlappingOccurrences l token
    · simp only [h, if_true, LoopState.mk.injEq, List.length_cons, List.map_cons,
        List.sum_cons, List.flatten_cons]
      refine ⟨by omega, by omega, by simp, by simp⟩
    · have hz : countNonOverlappingOccurrences l token = 0 := by omega
      simp only [h, if_false, LoopState.mk.injEq, List.length_cons, List.map_cons,
        List.sum_cons, List.flatten_cons]
      refine ⟨by omega, by omega, by trivial, by simp⟩

theorem runLoop_totalOccurrencesCount (token repl : List Char) (lines : List (List Char)) :
    (runLoop token repl lines).totalOccurrencesCount
      = (lines.map (fun l => countNonOverlappingOccurrences l token)).sum := by
  unfold runLoop
  rw [foldl_processLine_closed]
  simp

theorem runLoop_matchedLineNumbers (token repl : List Char) (lines : List (List Char)) :
    (runLoop token repl lines).matchedLineNumbers = matchedFrom token 0 lines := by
  unfold runLoop
  rw [foldl_processLine_closed]
  simp

theorem runLoop_written (token repl : List Char) (lines : List (List Char)) :
    (runLoop token repl lines).written
      = (lines.map (fun l => replaceAll l token repl ++ ['\n'])).flatten := by
  unfold runLoop
  rw [foldl_processLine_closed]
  simp

/-- Every recorded line number lies strictly between the starting counter
and the counter plus the number of remaining lines. -/
theorem matchedFrom_bounds (token : List Char) :
    ∀ (lines : List (List Char)) (k n : Nat),
      n ∈ matchedFrom token k lines → k < n ∧ n ≤ k + lines.length := by
  intro lines
  induction lines with
  | nil => intro k n h; simp [matchedFrom] at h
  | cons l rest ih =>
    intro k n h
    unfold matchedFrom at h
    by_cases hc : 0 < countNonOverlappingOccurrences l token
    · simp only [hc, if_true, List.mem_cons] at h
      rcases h with rfl | h
      · simp
      · have := ih (k + 1) n h
        simp only [List.length_cons]
        omega
    · simp only [hc, if_false] at h
      have := ih (k + 1) n h
      simp only [List.length_cons]
      omega

/-- The recorded line numbers are strictly increasing. -/
theorem matchedFrom_pairwise (token : List Char) :
    ∀ (lines : List (List Char)) (k : Nat),
      List.Pairwise (· < ·) (matchedFrom token k lines) := by
  intro lines
  induction lines with
  | nil => intro k; simp [matchedFrom]
  | cons l rest ih =>
    intro k
    unfold matchedFrom
    by_cases hc : 0 < countNonOverlappingOccurrences l token
    · simp only [hc, if_true]
      refine List.pairwise_cons.mpr ⟨?_, ih (k + 1)⟩
      intro n hn
      exact (matchedFrom_bounds token rest (k + 1) n hn).1
    · simp only [hc, if_false]
      exact ih (k + 1)

/-- Exactly the numbers of the lines with a positive occurrence count are
recorded. -/
theorem matchedFrom_mem_iff (token : List Char) :
    ∀ (lines : List (List Char)) (k n : Nat),
      n ∈ matchedFrom token k lines ↔
        (k < n ∧ n ≤ k + lines.length
          ∧ 0 < countNonOverlappingOccurrences (lines.getD (n - k - 1) []) token) := by
  intro lines
  induction lines with
  | nil => intro k n; simp [matchedFrom]; omega
  | cons l rest ih =>
    intro k n
    unfold matchedFrom
    by_cases hc : 0 < countNonOverlappingOccurrences l token
    · simp only [hc, if_true, List.mem_cons]
      constructor
      · rintro (rfl | h)
        · refine ⟨by omega, by simp, ?_⟩
          have hidx : k + 1 - k - 1 = 0 := by omega
          simpa [hidx] using hc
        · obtain ⟨h1, h2, h3⟩ := (ih (k + 1) n).mp h
          refine ⟨by omega, by simp only [List.length_cons]; omega, ?_⟩
          have hidx : n - k - 1 = (n - (k + 1) - 1) + 1 := by omega
          rw [hidx, List.getD_cons_succ]
          exact h3
      · rintro ⟨h1, h2, h3⟩
        by_cases hn : n = k + 1
        · exact Or.inl hn
        · refine Or.inr ((ih (k + 1) n).mpr ⟨by omega, ?_, ?_⟩)
          · simp only [List.length_cons] at h2
            omega
          · have hidx : n - k - 1 = (n - (k + 1) - 1) + 1 := by omega
            rw [hidx, List.getD_cons_succ] at h3
            exact h3
    · simp only [hc, if_false]
      constructor
      · intro h
        obtain ⟨h1, h2, h3⟩ := (ih (k + 1) n).mp h
        refine ⟨by omega, by simp only [List.length_cons]; omega, ?_⟩
        have hidx : n - k - 1 = (n - (k + 1) - 1) + 1 := by omega
        rw [hidx, List.getD_cons_succ]
        exact h3
      · rintro ⟨h1, h2, h3⟩
        by_cases hn : n = k + 1
        · subst hn
          have hidx : k + 1 - k - 1 = 0 := by omega
          rw [hidx, List.getD_cons_zero] at h3
          exact absurd h3 hc
        · refine (ih (k + 1) n).mpr ⟨by omega, ?_, ?_⟩
          · simp only [List.length_cons] at h2
            omega
          · have hidx : n - k - 1 = (n - (k + 1) - 1) + 1 := by omega
            rw [hidx, List.getD_cons_succ] at h3
            exact h3

/-! ## Helper lemmas: the fixed `devmode` → `HelloWorld` transform -/

theorem mem_replaceLoop (needle repl : List Char) :
    ∀ (fuel : Nat) (h : List Char) (x : Char),
      x ∈ replaceLoop needle repl fuel h → x ∈ repl ∨ x ∈ h := by
  intro fuel
  induction fuel with
  | zero =>
    intro h x hx
    cases h with
    | nil => simp [replaceLoop] at hx
    | cons c rest => exact Or.inr hx
  | succ f ih =>
    intro h x hx
    cases h with
    | nil => simp [replaceLoop] at hx
    | cons c rest =>
      simp only [replaceLoop] at hx
      by_cases hp : needle.isPrefixOf (c :: rest) = true
      · simp only [hp, if_true, List.mem_append] at hx
        rcases hx with hx | hx
        · exact Or.inl hx
        · rcases ih _ x hx with h1 | h1
          · exact Or.inl h1
          · exact Or.inr (List.mem_cons_of_mem c (List.drop_subset _ _ h1))
      · simp only [Bool.not_eq_true] at hp
        simp only [hp, Bool.false_eq_true, if_false, List.mem_cons] at hx
        rcases hx with rfl | hx
        · exact Or.inr (by simp)
        · rcases ih rest x hx with h1 | h1
          · exact Or.inl h1
          · exact Or.inr (List.mem_cons_of_mem c h1)

theorem mem_replaceAll (l token repl : List Char) (x : Char)
    (hx : x ∈ replaceAll l token repl) : x ∈ repl ∨ x ∈ l := by
  unfold replaceAll at hx
  split at hx
  · exact Or.inr hx
  · exact mem_replaceLoop token repl l.length l x hx

/-- Replacing in a terminator-free line yields a terminator-free line (the
replacement `HelloWorld` contains no terminator characters). -/
theorem replaceAll_clean (l : List Char)
    (hl : ∀ c ∈ l, c ≠ '\n' ∧ c ≠ '\r') :
    ∀ c ∈ replaceAll l matchTokenChars replacementChars, c ≠ '\n' ∧ c ≠ '\r' := by
  intro c hc
  rcases mem_replaceAll l _ _ c hc with h | h
  · constructor <;> (rintro rfl; revert h; decide)
  · exact hl c h

/-- Each replacement of the 7-character `devmode` by the 10-character
`HelloWorld` grows the line by 3 characters. -/
theorem replaceLoop_length_fixed :
    ∀ (fuel : Nat) (h : List Char), h.length ≤ fuel →
      (replaceLoop matchTokenChars replacementChars fuel h).length
        = h.length + 3 * countLoop matchTokenChars fuel h := by
  intro fuel
  induction fuel with
  | zero =>
    intro h hle
    have hnil : h = [] := List.eq_nil_of_length_eq_zero (Nat.le_zero.mp hle)
    subst hnil
    rfl
  | succ f ih =>
    intro h hle
    cases h with
    | nil => rfl
    | cons c rest =>
      simp only [replaceLoop, countLoop]
      by_cases hp : matchTokenChars.isPrefixOf (c :: rest) = true
      · simp only [hp, if_true, List.length_append]
        obtain ⟨s, hs⟩ := isPrefixOf_exists_suffix _ _ hp
        have hlen7 : matchTokenChars.length = 7 := rfl
        have hrl : rest.length = 6 + s.length := by
          have := congrArg List.length hs
          simp only [List.length_cons, List.length_append, hlen7] at this
          omega
        have hdl : (rest.drop (matchTokenChars.length - 1)).length ≤ f := by
          rw [List.length_drop]
          simp only [List.length_cons] at hle
          omega
        rw [ih _ hdl]
        have h10 : replacementChars.length = 10 := rfl
        rw [h10, List.length_drop, hlen7]
        simp only [List.length_cons]
        omega
      · simp only [Bool.not_eq_true] at hp
        simp only [hp, Bool.false_eq_true, if_false, List.length_cons]
        rw [ih rest (by simp only [List.length_cons] at hle; omega)]
        omega

theorem replaceAll_length_fixed (l : List Char) :
    (replaceAll l matchTokenChars replacementChars).length
      = l.length + 3 * countNonOverlappingOccurrences l matchTokenChars := by
  unfold replaceAll countNonOverlappingOccurrences
  rw [if_neg (by decide : ¬matchTokenChars.length = 0),
    if_neg (by decide : ¬matchTokenChars.length = 0)]
  exact replaceLoop_length_fixed l.length l le_rfl

/-- The committed content is the concatenation of the replaced lines, each
with exactly one `\n` appended. -/
theorem transformDoc_eq_flatten (doc : List Char) :
    transformDoc doc = ((splitLines doc).map
      (fun l => replaceAll l matchTokenChars replacementChars ++ ['\n'])).flatten := by
  unfold transformDoc
  exact runLoop_written _ _ _

theorem totalCountDoc_eq_sum (doc : List Char) :
    totalCountDoc doc
      = ((splitLines doc).map
          (fun l => countNonOverlappingOccurrences l matchTokenChars)).sum :=
  runLoop_totalOccurrencesCount _ _ _

/-- Reading the committed content back yields exactly the replaced lines. -/
theorem splitLines_transformDoc (doc : List Char) :
    splitLines (transformDoc doc)
      = (splitLines doc).map (fun l => replaceAll l matchTokenChars replacementChars) := by
  rw [transformDoc_eq_flatten]
  have hmm : ((splitLines doc).map
        (fun l => replaceAll l matchTokenChars replacementChars ++ ['\n'])).flatten
      = ((((splitLines doc).map (fun l => replaceAll l matchTokenChars replacementChars)).map
          (fun l => l ++ ['\n']))).flatten := by
    rw [List.map_map]
    rfl
  rw [hmm, splitLines_flatten_newline]
  intro l hl
  simp only [List.mem_map] at hl
  obtain ⟨l0, hl0, rfl⟩ := hl
  exact replaceAll_clean l0 (splitLines_clean doc l0 hl0)

/-- Rendering the lines of the committed content (each with one `\n`)
recovers the committed bytes. -/
theorem render_splitLines_transformDoc (doc : List Char) :
    ((splitLines (transformDoc doc)).map (fun l => l ++ ['\n'])).flatten
      = transformDoc doc := by
  rw [splitLines_transformDoc, transformDoc_eq_flatten, List.map_map]
  rfl

theorem transformDoc_length (doc : List Char) :
    (transformDoc doc).length
      = (((splitLines doc).map (fun l => l ++ ['\n'])).flatten).length
        + 3 * totalCountDoc doc := by
  rw [transformDoc_eq_flatten, totalCountDoc_eq_sum]
  generalize (splitLines doc) = lines
  induction lines with
  | nil => rfl
  | cons l rest ih =>
    simp only [List.map_cons, List.flatten_cons, List.sum_cons, List.length_append,
      replaceAll_length_fixed]
    omega

/-! ## Helper lemmas: miscellaneous structure -/

theorem splitLinesAux_cons_other (acc rest : List Char) (c : Char)
    (h1 : c ≠ '\r') (h2 : c ≠ '\n') :
    splitLinesAux acc (c :: rest) = splitLinesAux (c :: acc) rest := by
  simp [splitLinesAux, h1, h2]

theorem splitLinesAux_cr_other (acc rest : List Char) (c : Char) (h : c ≠ '\n') :
    splitLinesAux acc ('\r' :: c :: rest) = acc.reverse :: splitLinesAux [] (c :: rest) := by
  simp [splitLinesAux, h]

theorem splitLinesAux_ne_nil :
    ∀ (s acc : List Char), acc ≠ [] → splitLinesAux acc s ≠ [] := by
  intro s
  induction s with
  | nil =>
    intro acc h
    simp only [splitLinesAux]
    rw [if_neg (by simpa using h)]
    simp
  | cons c rest ih =>
    intro acc h
    by_cases hr : c = '\r'
    · subst hr
      cases rest with
      | nil =>
        have heq : splitLinesAux acc ['\r'] = acc.reverse :: splitLinesAux [] [] := rfl
        rw [heq]
        simp
      | cons c1 r1 =>
        by_cases hn1 : c1 = '\n'
        · subst hn1
          have heq : splitLinesAux acc ('\r' :: '\n' :: r1)
              = acc.reverse :: splitLinesAux [] r1 := rfl
          rw [heq]
          simp
        · rw [splitLinesAux_cr_other acc r1 c1 hn1]
          simp
    · by_cases hn : c = '\n'
      · subst hn
        have heq : splitLinesAux acc ('\n' :: rest)
            = acc.reverse :: splitLinesAux [] rest := rfl
        rw [heq]
        simp
      · rw [splitLinesAux_cons_other acc rest c hr hn]
        exact ih (c :: acc) (by simp)

/-- A nonempty document yields at least one line. -/
theorem splitLines_ne_nil (doc : List Char) (h : doc ≠ []) : splitLines doc ≠ [] := by
  cases doc with
  | nil => exact absurd rfl h
  | cons c rest =>
    unfold splitLines
    by_cases hr : c = '\r'
    · subst hr
      cases rest with
      | nil =>
        have heq : splitLinesAux [] ['\r'] = [].reverse :: splitLinesAux [] [] := rfl
        rw [heq]
        simp
      | cons c1 r1 =>
        by_cases hn1 : c1 = '\n'
        · subst hn1
          have heq : splitLinesAux [] ('\r' :: '\n' :: r1)
              = [].reverse :: splitLinesAux [] r1 := rfl
          rw [heq]
          simp
        · rw [splitLinesAux_cr_other [] r1 c1 hn1]
          simp
    · by_cases hn : c = '\n'
      · subst hn
        have heq : splitLinesAux [] ('\n' :: rest)
            = [].reverse :: splitLinesAux [] rest := rfl
        rw [heq]
        simp
      · rw [splitLinesAux_cons_other [] rest c hr hn]
        exact splitLinesAux_ne_nil rest [c] (by simp)

theorem getLast?_append_right (a : List Char) :
    ∀ b : List Char, b ≠ [] → (a ++ b).getLast? = b.getLast? := by
  induction a with
  | nil => intro b _; simp
  | cons x a ih =>
    intro b h
    have hab : a ++ b ≠ [] := by
      intro hn
      exact h (List.append_eq_nil.mp hn).2
    rw [List.cons_append]
    cases hab2 : a ++ b with
    | nil => exact absurd hab2 hab
    | cons y t =>
      rw [List.getLast?_cons_cons, ← hab2]
      exact ih b h

/-- A nonempty list of lines, each written with one trailing `\n`, always
ends in `\n`. -/
theorem flatten_newline_getLast (g : List Char → List Char) :
    ∀ (lines : List (List Char)), lines ≠ [] →
      ((lines.map (fun l => g l ++ ['\n'])).flatten).getLast? = some '\n' := by
  intro lines
  induction lines with
  | nil => intro h; exact absurd rfl h
  | cons l rest ih =>
    intro _
    cases rest with
    | nil =>
      simp only [List.map_cons, List.map_nil, List.flatten_cons, List.flatten_nil,
        List.append_nil]
      rw [getLast?_append_right (g l) ['\n'] (by simp)]
      rfl
    | cons l2 r2 =>
      have hne : (((l2 :: r2).map (fun l => g l ++ ['\n'])).flatten) ≠ [] := by
        simp only [List.map_cons, List.flatten_cons]
        intro hcontra
        have h2 := (List.append_eq_nil.mp hcontra).1
        have := (List.append_eq_nil.mp h2).2
        simp at this
      rw [List.map_cons, List.flatten_cons, getLast?_append_right _ _ hne]
      exact ih (by simp)

/-- With an empty token no line number is ever recorded. -/
theorem matchedFrom_empty_token :
    ∀ (lines : List (List Char)) (k : Nat), matchedFrom [] k lines = [] := by
  intro lines
  induction lines with
  | nil => intro k; rfl
  | cons l rest ih =>
    intro k
    rw [matchedFrom_cons]
    have hz : countNonOverlappingOccurrences l ([] : List Char) = 0 := rfl
    rw [hz]
    simpa using ih (k + 1)

/-! ## Helper lemmas: the backpressure trace -/

theorem writeLine_mem_writerEvents (sat : Nat → Bool) :
    ∀ (n start j : Nat), start ≤ j → j < start + n →
      StreamEvent.writeLine j ∈ writerEvents sat start n := by
  intro n
  induction n with
  | zero => intro start j h1 h2; omega
  | succ k ih =>
    intro start j h1 h2
    by_cases hj : j = start
    · subst hj
      simp [writerEvents]
    · have hmem : StreamEvent.writeLine j ∈ writerEvents sat (start + 1) k :=
        ih (start + 1) j (by omega) (by omega)
      cases hs : sat start <;> simp [writerEvents, hs, hmem]

/-- Whenever the write of line `i` reports saturation, the trace shows the
drain wait immediately after it, the write of line `i+1` only after that
wait, and no write of line `i+1` anywhere before. -/
theorem writerEvents_saturated_drain (sat : Nat → Bool) :
    ∀ (n start i : Nat), start ≤ i → i + 1 < start + n → sat i = true →
      ∃ pre post, writerEvents sat start n
          = pre ++ StreamEvent.writeLine i :: StreamEvent.drainWait :: post
        ∧ StreamEvent.writeLine (i + 1) ∈ post
        ∧ StreamEvent.writeLine (i + 1) ∉ pre := by
  intro n
  induction n with
  | zero => intro start i h1 h2 _; omega
  | succ k ih =>
    intro start i h1 h2 hsat
    by_cases hi : i = start
    · subst hi
      refine ⟨[], writerEvents sat (i + 1) k, ?_, ?_, by simp⟩
      · simp [writerEvents, hsat]
      · exact writeLine_mem_writerEvents sat k (i + 1) (i + 1) le_rfl (by omega)
    · obtain ⟨pre, post, heq, hmem, hnot⟩ := ih (start + 1) i (by omega) (by omega) hsat
      by_cases hs : sat start = true
      · refine ⟨StreamEvent.writeLine start :: StreamEvent.drainWait :: pre, post, ?_, hmem, ?_⟩
        · simp [writerEvents, hs, heq]
        · intro hin
          rcases List.mem_cons.mp hin with hbad | hin2
          · have : i + 1 = start := StreamEvent.writeLine.inj hbad
            omega
          · rcases List.mem_cons.mp hin2 with hbad | hin3
            · exact StreamEvent.noConfusion hbad
            · exact hnot hin3
      · have hsf : sat start = false := by
          cases hval : sat start
          · rfl
          · exact absurd hval hs
        refine ⟨StreamEvent.writeLine start :: pre, post, ?_, hmem, ?_⟩
        · simp [writerEvents, hsf, heq]
        · intro hin
          rcases List.mem_cons.mp hin with hbad | hin2
          · have : i + 1 = start := StreamEvent.writeLine.inj hbad
            omega
          · exact hnot hin2

/-! ## The claims -/

/-- C1: for every run over any input document, the final
`totalOccurrencesCount` equals the sum of the per-line occurrence counts,
and `matchedLineNumbers` is a strictly increasing sequence containing
exactly the one-based line numbers whose per-line count is nonzero. -/
theorem totalCount_and_matchedLines_invariant (token repl : List Char)
    (lines : List (List Char)) :
    (runLoop token repl lines).totalOccurrencesCount
        = (lines.map (fun l => countNonOverlappingOccurrences l token)).sum
      ∧ List.Pairwise (· < ·) (runLoop token repl lines).matchedLineNumbers
      ∧ ∀ n : Nat, n ∈ (runLoop token repl lines).matchedLineNumbers ↔
          (1 ≤ n ∧ n ≤ lines.length
            ∧ 0 < countNonOverlappingOccurrences (lines.getD (n - 1) []) token) := by
  refine ⟨runLoop_totalOccurrencesCount token repl lines, ?_, ?_⟩
  · rw [runLoop_matchedLineNumbers]
    exact matchedFrom_pairwise token lines 0
  · intro n
    rw [runLoop_matchedLineNumbers]
    have h := matchedFrom_mem_iff token lines 0 n
    simpa using h

/-- C2: `countNonOverlappingOccurrences` scans left to right; on each match
it advances the search position past the end of the match, so a token
immediately following another match is counted, overlapping occurrences
within an already-matched span are not double-counted, and the count of
`devmode` in `devmodedevmode` is 2. -/
theorem countNonOverlapping_scan_semantics :
    (∀ (needle h : List Char), needle ≠ [] → needle.isPrefixOf h = true →
        countNonOverlappingOccurrences h needle
          = 1 + countNonOverlappingOccurrences (h.drop needle.length) needle)
      ∧ (∀ (needle : List Char) (c : Char) (rest : List Char), needle ≠ [] →
          needle.isPrefixOf (c :: rest) = false →
          countNonOverlappingOccurrences (c :: rest) needle
            = countNonOverlappingOccurrences rest needle)
      ∧ (∀ (needle s : List Char), needle ≠ [] →
          countNonOverlappingOccurrences (needle ++ s) needle
            = 1 + countNonOverlappingOccurrences s needle)
      ∧ countNonOverlappingOccurrences "devmodedevmode".data "devmode".data = 2 :=
  ⟨countNonOverlappingOccurrences_head_match,
    countNonOverlappingOccurrences_head_miss,
    countNonOverlappingOccurrences_token_append,
    by decide⟩

/-- C3: on the document lines `["a devmode b", "nothing here",
"devmodedevmode"]` the run writes the output lines `["a HelloWorld b",
"nothing here", "HelloWorldHelloWorld"]`, counts 3 total occurrences, and
records the matched line numbers `[1, 3]`. -/
theorem example_document_run :
    (runLoop matchTokenChars replacementChars
          ["a devmode b".data, "nothing here".data, "devmodedevmode".data]).written
        = "a HelloWorld b\nnothing here\nHelloWorldHelloWorld\n".data
      ∧ (runLoop matchTokenChars replacementChars
          ["a devmode b".data, "nothing here".data, "devmodedevmode".data]).totalOccurrencesCount
        = 3
      ∧ (runLoop matchTokenChars replacementChars
          ["a devmode b".data, "nothing here".data, "devmodedevmode".data]).matchedLineNumbers
        = [1, 3] := by
  refine ⟨by decide, by decide, by decide⟩

/-- C4 (amended): running the transform twice yields an identical document
exactly when the first run's output contains no further occurrence of the
token (equivalently, the second run's `totalOccurrencesCount` is 0); a
replacement junction can recreate the token, so this can fail. -/
theorem transform_twice_fixed_point_iff (doc : List Char) :
    transformDoc (transformDoc doc) = transformDoc doc
      ↔ totalCountDoc (transformDoc doc) = 0 := by
  constructor
  · intro hfix
    have hlen := congrArg List.length hfix
    rw [transformDoc_length (transformDoc doc)] at hlen
    rw [congrArg List.length (render_splitLines_transformDoc doc)] at hlen
    omega
  · intro hz
    rw [totalCountDoc_eq_sum] at hz
    have hz' : ∀ l ∈ splitLines (transformDoc doc),
        countNonOverlappingOccurrences l matchTokenChars = 0 := by
      intro l hl
      exact List.sum_eq_zero_iff.mp hz _ (List.mem_map_of_mem _ hl)
    rw [transformDoc_eq_flatten (transformDoc doc)]
    have hmap : (splitLines (transformDoc doc)).map
          (fun l => replaceAll l matchTokenChars replacementChars ++ ['\n'])
        = (splitLines (transformDoc doc)).map (fun l => l ++ ['\n']) := by
      apply List.map_congr_left
      intro l hl
      rw [replaceAll_of_count_zero _ _ l (hz' l hl)]
    rw [hmap]
    exact render_splitLines_transformDoc doc

/-- C4 counterexample: the transform is not idempotent.  On the document
`devmodeevmode\n` the first run produces `HelloWorldevmode\n`, whose trailing
`d` of the replacement joins `evmode` into a fresh `devmode`, so the second
run counts 1 and changes the document again. -/
theorem transform_not_idempotent_counterexample :
    transformDoc (transformDoc "devmodeevmode\n".data)
        ≠ transformDoc "devmodeevmode\n".data
      ∧ totalCountDoc (transformDoc "devmodeevmode\n".data) = 1
      ∧ transformDoc "devmodeevmode\n".data = "HelloWorldevmode\n".data := by
  refine ⟨by decide, by decide, by decide⟩

/-- C5 (amended): when the commit rename fails, the run ends in failure and
the original source document's content is unchanged; the staging file,
however, is removed by `main`'s best-effort cleanup, and only remains on
disk if the cleanup unlink itself fails. -/
theorem commitFailure_cleanup_behavior (flt : Faults) (fs : FileSystemState)
    (content : List Char)
    (hsrc : fs.sourceFile = some content)
    (hread : flt.readOk = true) (hwrite : flt.writeOk = true)
    (hrename : flt.renameOk = false) :
    (mainRun flt fs).2 = false
      ∧ (mainRun flt fs).1.sourceFile = some content
      ∧ (mainRun flt fs).1.tempFile
          = (if flt.unlinkOk then none else some (transformDoc content))
      ∧ (mainRun flt fs).1.logFile = fs.logFile := by
  have hproc : processFileAndGenerateLog flt fs
      = .error (.commitFailure, { fs with tempFile := some (transformDoc content) }) := by
    unfold processFileAndGenerateLog
    rw [hsrc]
    simp [hread, hwrite, hrename]
  unfold mainRun
  rw [hproc]
  cases hu : flt.unlinkOk <;> simp [hsrc, hu]

theorem commitFailure_cleanup_behavior_witness :
    (mainRun ⟨true, true, [], false, true, true⟩
        ⟨some "devmode".data, none, none⟩).2 = false
      ∧ (mainRun ⟨true, true, [], false, true, true⟩
          ⟨some "devmode".data, none, none⟩).1.sourceFile = some "devmode".data
      ∧ (mainRun ⟨true, true, [], false, true, true⟩
          ⟨some "devmode".data, none, none⟩).1.tempFile
        = (if (true : Bool) then none else some (transformDoc "devmode".data))
      ∧ (mainRun ⟨true, true, [], false, true, true⟩
          ⟨some "devmode".data, none, none⟩).1.logFile = none :=
  commitFailure_cleanup_behavior ⟨true, true, [], false, true, true⟩
    ⟨some "devmode".data, none, none⟩ "devmode".data rfl rfl rfl rfl

/-- C5 counterexample: a concrete run in which the rename fails and the
staging file is *not* still present afterwards — `main`'s catch block
unlinks it — refuting the claim that the StagingArtifact is left on disk
for manual recovery. -/
theorem commitFailure_staging_deleted_counterexample :
    (mainRun ⟨true, true, [], false, true, true⟩
        ⟨some "devmode".data, none, none⟩).1.tempFile = none
      ∧ (mainRun ⟨true, true, [], false, true, true⟩
          ⟨some "devmode".data, none, none⟩).2 = false
      ∧ (mainRun ⟨true, true, [], false, true, true⟩
          ⟨some "devmode".data, none, none⟩).1.sourceFile = some "devmode".data := by
  refine ⟨by decide, by decide, by decide⟩

/-- C6 (amended): if the commit already succeeded and only the audit-log
write fails afterwards, the committed document stays in place (the
transformation is not rolled back), but the process does not keep a success
signal: the error is caught in `main` and the exit status is set to
failure. -/
theorem logFailure_behavior (flt : Faults) (fs : FileSystemState)
    (content : List Char)
    (hsrc : fs.sourceFile = some content)
    (hread : flt.readOk = true) (hwrite : flt.writeOk = true)
    (hrename : flt.renameOk = true) (hlog : flt.logWriteOk = false) :
    (mainRun flt fs).1.sourceFile = some (transformDoc content)
      ∧ (mainRun flt fs).1.tempFile = none
      ∧ (mainRun flt fs).1.logFile = fs.logFile
      ∧ (mainRun flt fs).2 = false := by
  have hproc : processFileAndGenerateLog flt fs
      = .error (.logFailure,
          { fs with sourceFile := some (transformDoc content), tempFile := none }) := by
    unfold processFileAndGenerateLog
    rw [hsrc]
    simp [hread, hwrite, hrename, hlog]
  unfold mainRun
  rw [hproc]
  cases hu : flt.unlinkOk <;> simp [hu]

theorem logFailure_behavior_witness :
    (mainRun ⟨true, true, [], true, false, true⟩
        ⟨some "devmode".data, none, none⟩).1.sourceFile
        = some (transformDoc "devmode".data)
      ∧ (mainRun ⟨true, true, [], true, false, true⟩
          ⟨some "devmode".data, none, none⟩).1.tempFile = none
      ∧ (mainRun ⟨true, true, [], true, false, true⟩
          ⟨some "devmode".data, none, none⟩).1.logFile = none
      ∧ (mainRun ⟨true, true, [], true, false, true⟩
          ⟨some "devmode".data, none, none⟩).2 = false :=
  logFailure_behavior ⟨true, true, [], true, false, true⟩
    ⟨some "devmode".data, none, none⟩ "devmode".data rfl rfl rfl rfl rfl

/-- C6 counterexample: a concrete run in which the rename has succeeded
(the source file holds the transformed content) and only the log write
fails, yet the process success signal is `false` (`process.exitCode = 1`) —
refuting the claim that the success/exit status is not turned into a
failure. -/
theorem logFailure_exit_nonzero_counterexample :
    (mainRun ⟨true, true, [], true, false, true⟩
        ⟨some "devmode".data, none, none⟩).1.sourceFile = some "HelloWorld\n".data
      ∧ (mainRun ⟨true, true, [], true, false, true⟩
          ⟨some "devmode".data, none, none⟩).2 = false := by
  refine ⟨by decide, by decide⟩

/-- C7 (amended): with an empty match token the counting scan returns 0
(and terminates), the run's `totalOccurrencesCount` is 0 with no matched
line numbers, and the committed content carries exactly the input's lines
unchanged — though the committed bytes may still differ from the input,
because every line is rewritten with a single LF terminator. -/
theorem empty_token_behavior :
    (∀ h : List Char, countNonOverlappingOccurrences h [] = 0)
      ∧ (∀ (repl : List Char) (lines : List (List Char)),
          (runLoop [] repl lines).totalOccurrencesCount = 0
            ∧ (runLoop [] repl lines).matchedLineNumbers = [])
      ∧ (∀ (repl doc : List Char),
          splitLines ((runLoop [] repl (splitLines doc)).written) = splitLines doc) := by
  refine ⟨fun h => rfl, ?_, ?_⟩
  · intro repl lines
    constructor
    · rw [runLoop_totalOccurrencesCount]
      have hmap : lines.map (fun l => countNonOverlappingOccurrences l ([] : List Char))
          = lines.map (fun _ => 0) := List.map_congr_left fun l _ => rfl
      rw [hmap]
      simp
    · rw [runLoop_matchedLineNumbers]
      exact matchedFrom_empty_token lines 0
  · intro repl doc
    rw [runLoop_written]
    have hmap : (splitLines doc).map (fun l => replaceAll l [] repl ++ ['\n'])
        = (splitLines doc).map (fun l => l ++ ['\n']) :=
      List.map_congr_left fun l _ => by rw [replaceAll]; rfl
    rw [hmap, splitLines_flatten_newline _ (splitLines_clean doc)]

/-- C7 counterexample: with the empty token and input `a` (no trailing
newline) the committed bytes are `a\n`, not `a` — the occurrence count is 0
but the committed document is not byte-for-byte unchanged. -/
theorem empty_token_bytes_change_counterexample :
    (runLoop [] "HelloWorld".data (splitLines "a".data)).totalOccurrencesCount = 0
      ∧ (runLoop [] "HelloWorld".data (splitLines "a".data)).written = "a\n".data
      ∧ (runLoop [] "HelloWorld".data (splitLines "a".data)).written ≠ "a".data := by
  refine ⟨by decide, by decide, by decide⟩

/-- C8: a missing or unreadable source document terminates the run in
failure with a not-found/unreadable error before any mutation: no staging
file is created, the source document and the log are untouched, and the
process exit status signals failure. -/
theorem missing_source_no_mutation (flt : Faults) (fs : FileSystemState)
    (htemp : fs.tempFile = none)
    (hbad : fs.sourceFile = none ∨ flt.readOk = false) :
    (mainRun flt fs).1.sourceFile = fs.sourceFile
      ∧ (mainRun flt fs).1.tempFile = none
      ∧ (mainRun flt fs).1.logFile = fs.logFile
      ∧ (mainRun flt fs).2 = false
      ∧ processFileAndGenerateLog flt fs
          = .error (RunError.notFoundOrUnreadable, fs) := by
  have hproc : processFileAndGenerateLog flt fs
      = .error (RunError.notFoundOrUnreadable, fs) := by
    unfold processFileAndGenerateLog
    rcases hbad with h | h
    · rw [h]
    · cases hsrc : fs.sourceFile with
      | none => rfl
      | some content => simp [h]
  refine ⟨?_, ?_, ?_, ?_, hproc⟩ <;>
    (unfold mainRun; rw [hproc]; try (cases hu : flt.unlinkOk <;> simp [htemp]))

theorem missing_source_no_mutation_witness :
    (mainRun ⟨true, true, [], true, true, true⟩ ⟨none, none, none⟩).1.sourceFile = none
      ∧ (mainRun ⟨true, true, [], true, true, true⟩ ⟨none, none, none⟩).1.tempFile = none
      ∧ (mainRun ⟨true, true, [], true, true, true⟩ ⟨none, none, none⟩).1.logFile = none
      ∧ (mainRun ⟨true, true, [], true, true, true⟩ ⟨none, none, none⟩).2 = false
      ∧ processFileAndGenerateLog ⟨true, true, [], true, true, true⟩ ⟨none, none, none⟩
          = .error (RunError.notFoundOrUnreadable, ⟨none, none, none⟩) :=
  missing_source_no_mutation ⟨true, true, [], true, true, true⟩ ⟨none, none, none⟩
    rfl (Or.inl rfl)

/-- C9: in the streaming loop, whenever the write of line `i` reports
saturation, the trace shows the drain wait immediately after that write;
the write of line `i + 1` occurs only after the wait and never before it. -/
theorem backpressure_drain_before_next_write (sat : Nat → Bool) (numLines i : Nat)
    (hnext : i + 1 < numLines) (hsat : sat i = true) :
    ∃ pre post, streamingTrace sat numLines
        = pre ++ StreamEvent.writeLine i :: StreamEvent.drainWait :: post
      ∧ StreamEvent.writeLine (i + 1) ∈ post
      ∧ StreamEvent.writeLine (i + 1) ∉ pre :=
  writerEvents_saturated_drain sat numLines 0 i (Nat.zero_le i) (by omega) hsat

theorem backpressure_drain_before_next_write_witness :
    ∃ pre post, streamingTrace (fun _ => true) 2
        = pre ++ StreamEvent.writeLine 0 :: StreamEvent.drainWait :: post
      ∧ StreamEvent.writeLine 1 ∈ post
      ∧ StreamEvent.writeLine 1 ∉ pre :=
  backpressure_drain_before_next_write (fun _ => true) 2 0 (by decide) rfl

/-- C10: the streaming loop appends exactly one `\n` terminator to every
written line, so the committed output is LF-terminated throughout (no
carriage return survives), ends with a trailing newline for every nonempty
input — even one whose last line had no terminator — and its bytes can
differ from the input even when `totalOccurrencesCount` is 0. -/
theorem newline_normalization :
    (∀ (token repl : List Char) (lines : List (List Char)),
        (runLoop token repl lines).written
          = (lines.map (fun l => replaceAll l token repl ++ ['\n'])).flatten)
      ∧ (∀ doc : List Char, '\r' ∉ transformDoc doc)
      ∧ (∀ doc : List Char, doc ≠ [] → (transformDoc doc).getLast? = some '\n')
      ∧ (totalCountDoc "a".data = 0 ∧ transformDoc "a".data = "a\n".data
          ∧ transformDoc "a".data ≠ "a".data)
      ∧ (totalCountDoc "a\r\nb\r\n".data = 0
          ∧ transformDoc "a\r\nb\r\n".data = "a\nb\n".data) := by
  refine ⟨runLoop_written, ?_, ?_, ⟨by decide, by decide, by decide⟩, by decide, by decide⟩
  · intro doc hc
    rw [transformDoc_eq_flatten, List.mem_flatten] at hc
    obtain ⟨chunk, hchunk, hcmem⟩ := hc
    rw [List.mem_map] at hchunk
    obtain ⟨l0, hl0, rfl⟩ := hchunk
    rcases List.mem_append.mp hcmem with h | h
    · exact (replaceAll_clean l0 (splitLines_clean doc l0 hl0) '\r' h).2 rfl
    · rw [List.mem_singleton] at h
      exact absurd h (by decide)
  · intro doc hdoc
    rw [transformDoc_eq_flatten]
    exact flatten_newline_getLast _ (splitLines doc) (splitLines_ne_nil doc hdoc)
